import Mathlib

/-!
Verification of the enhanced-working-diffs core: the unified-diff hunk parser
(`parseGitDiff` in the diff parser module and its module-local variant in
`extension.ts`), the hand-rolled character differ (`diffStrings` in
`extension.ts`), and the annotation projector
(`DiffDecorationProvider.calculateDecorations`).

JavaScript strings are modelled as `List Char` (`JStr`); a text document is a
`List JStr` of its lines, so `document.lineCount` is the list length and
`document.lineAt(i).text` is the `i`-th element.  VS Code constant styling
fields (colors, margins, borders) carry no data dependence and are omitted
from decoration records; the content-bearing fields (ranges and the
`after.contentText` payloads) are kept.
-/

/-- Model of a JavaScript string: its sequence of characters. -/
abbrev JStr := List Char

/-- Line record type tags, also reused for the character-change records of the
hand-rolled `diffStrings` (the source uses the same string literals
`added` / `removed` / `unchanged` for both). -/
inductive LineType where
  | added
  | removed
  | unchanged
deriving DecidableEq

/-- One line inside a hunk: `{type, content}`, content without the one-character
diff marker. -/
structure LineRecord where
  type : LineType
  content : JStr
deriving DecidableEq

/-- A hunk as produced by `parseGitDiff`: header offsets plus typed lines. -/
structure Hunk where
  oldStart : Nat
  oldCount : Nat
  newStart : Nat
  newCount : Nat
  lines : List LineRecord
deriving DecidableEq

/-- The result object of `parseGitDiff`: `{hunks: [...]}`. -/
structure ParsedDiff where
  hunks : List Hunk
deriving DecidableEq

/-- Model of `diffOutput.split('\n')`: split on every line feed; the empty
string yields `[""]`, like the JavaScript method. -/
def splitLines : JStr → List JStr
  | [] => [[]]
  | c :: cs =>
    if c = '\n' then [] :: splitLines cs
    else
      match splitLines cs with
      | [] => [[c]]
      | l :: ls => (c :: l) :: ls

/-- Model of `parseInt(s, 10)` on a string of decimal digits. -/
def digitsVal (ds : JStr) : Nat :=
  ds.foldl (fun n c => n * 10 + (c.toNat - 48)) 0

/-- Model of matching the diff parser module's hunk-header regex
`^@@ -(\d+),?(\d*) \+(\d+),?(\d*) @@` against a line.  Returns the four
captured groups (group 2 and group 4 may be empty).  Greedy matching of
`(\d+),?(\d*)` is equivalent to: take the maximal digit run, optionally
consume one comma, take the following maximal digit run. -/
def matchHunkHeader (l : JStr) : Option (JStr × JStr × JStr × JStr) :=
  match l with
  | '@' :: '@' :: ' ' :: '-' :: r0 =>
    let (g1, r1) := r0.span Char.isDigit
    if g1 = [] then none
    else
      let r2 := match r1 with
        | ',' :: t => t
        | _ => r1
      let (g2, r3) := r2.span Char.isDigit
      match r3 with
      | ' ' :: '+' :: r4 =>
        let (g3, r5) := r4.span Char.isDigit
        if g3 = [] then none
        else
          let r6 := match r5 with
            | ',' :: t => t
            | _ => r5
          let (g4, r7) := r6.span Char.isDigit
          match r7 with
          | ' ' :: '@' :: '@' :: _ => some (g1, g2, g3, g4)
          | _ => none
      | _ => none
  | _ => none

/-- Model of matching the `extension.ts` hunk-header regex
`@@ -(\d+),(\d+) \+(\d+),(\d+) @@` anchored at the start of the given
suffix: all four digit groups and both commas are mandatory. -/
def matchHunkHeaderStrict (l : JStr) : Option (JStr × JStr × JStr × JStr) :=
  match l with
  | '@' :: '@' :: ' ' :: '-' :: r0 =>
    let (g1, r1) := r0.span Char.isDigit
    if g1 = [] then none
    else
      match r1 with
      | ',' :: r2 =>
        let (g2, r3) := r2.span Char.isDigit
        if g2 = [] then none
        else
          match r3 with
          | ' ' :: '+' :: r4 =>
            let (g3, r5) := r4.span Char.isDigit
            if g3 = [] then none
            else
              match r5 with
              | ',' :: r6 =>
                let (g4, r7) := r6.span Char.isDigit
                if g4 = [] then none
                else
                  match r7 with
                  | ' ' :: '@' :: '@' :: _ => some (g1, g2, g3, g4)
                  | _ => none
              | _ => none
          | _ => none
      | _ => none
  | _ => none

/-- Unanchored search for the `extension.ts` header regex: the JavaScript
`line.match(...)` returns the leftmost match, so try every start position
from the left. -/
def searchHunkHeaderStrict : JStr → Option (JStr × JStr × JStr × JStr)
  | [] => none
  | c :: t =>
    match matchHunkHeaderStrict (c :: t) with
    | some r => some r
    | none => searchHunkHeaderStrict t

/-- Line loop of the diff parser module's `parseGitDiff`: `cur` is the open
`currentHunk`, `acc` the hunks pushed so far.  A header line finalizes the
open hunk and opens a new one (empty groups default to 1); before the first
header every line is discarded; inside a hunk, `+`/`-`/space prefixes give
`added`/`removed`/`unchanged` records and any other line is ignored. -/
def startsWithChar (c : Char) (l : JStr) : Bool :=
  match l with
  | x :: _ => x = c
  | [] => false

/-- Model of `line.startsWith('@@')`. -/
def startsWithAtAt (l : JStr) : Bool :=
  match l with
  | c1 :: c2 :: _ => c1 = '@' && c2 = '@'
  | _ => false

def parseLinesDP : List JStr → Option Hunk → List Hunk → List Hunk
  | [], none, acc => acc
  | [], some h, acc => acc ++ [h]
  | line :: rest, cur, acc =>
    match matchHunkHeader line with
    | some (g1, g2, g3, g4) =>
      let newHunk : Hunk :=
        ⟨digitsVal g1, if g2 = [] then 1 else digitsVal g2,
         digitsVal g3, if g4 = [] then 1 else digitsVal g4, []⟩
      match cur with
      | some h => parseLinesDP rest (some newHunk) (acc ++ [h])
      | none => parseLinesDP rest (some newHunk) acc
    | none =>
      match cur with
      | none => parseLinesDP rest none acc
      | some h =>
        if startsWithChar '+' line then
          parseLinesDP rest (some { h with lines := h.lines ++ [⟨.added, line.drop 1⟩] }) acc
        else if startsWithChar '-' line then
          parseLinesDP rest (some { h with lines := h.lines ++ [⟨.removed, line.drop 1⟩] }) acc
        else if startsWithChar ' ' line then
          parseLinesDP rest (some { h with lines := h.lines ++ [⟨.unchanged, line.drop 1⟩] }) acc
        else parseLinesDP rest (some h) acc

/-- The `parseGitDiff` exported by the diff parser module: falsy input returns
the empty result at once, otherwise the line loop runs over the split lines. -/
def parseGitDiff (diffOutput : JStr) : ParsedDiff :=
  if diffOutput = [] then ⟨[]⟩
  else ⟨parseLinesDP (splitLines diffOutput) none []⟩

/-- Line loop of the module-local `parseGitDiff` in `extension.ts`: a line
starting with `@@` is handled only as a (strict-regex) header candidate and
is otherwise skipped; body handling is identical to the diff parser module. -/
def parseLinesExt : List JStr → Option Hunk → List Hunk → List Hunk
  | [], none, acc => acc
  | [], some h, acc => acc ++ [h]
  | line :: rest, cur, acc =>
    if startsWithAtAt line then
      match searchHunkHeaderStrict line with
      | some (g1, g2, g3, g4) =>
        let newHunk : Hunk := ⟨digitsVal g1, digitsVal g2, digitsVal g3, digitsVal g4, []⟩
        match cur with
        | some h => parseLinesExt rest (some newHunk) (acc ++ [h])
        | none => parseLinesExt rest (some newHunk) acc
      | none => parseLinesExt rest cur acc
    else
      match cur with
      | none => parseLinesExt rest cur acc
      | some h =>
        if startsWithChar '+' line then
          parseLinesExt rest (some { h with lines := h.lines ++ [⟨.added, line.drop 1⟩] }) acc
        else if startsWithChar '-' line then
          parseLinesExt rest (some { h with lines := h.lines ++ [⟨.removed, line.drop 1⟩] }) acc
        else if startsWithChar ' ' line then
          parseLinesExt rest (some { h with lines := h.lines ++ [⟨.unchanged, line.drop 1⟩] }) acc
        else parseLinesExt rest (some h) acc

/-- The module-local `parseGitDiff` of `extension.ts` (no falsy early return;
`''.split('\n')` gives `['']` and no hunk ever opens). -/
def parseGitDiffExt (diffOutput : JStr) : ParsedDiff :=
  ⟨parseLinesExt (splitLines diffOutput) none []⟩

/-- A character-change record of the hand-rolled `diffStrings` in
`extension.ts`: `{type, start, end}` index ranges (`end` renamed `endIdx`;
it is a reserved word in Lean). -/
structure CharChange where
  type : LineType
  start : Nat
  endIdx : Nat
deriving DecidableEq

/-- Length of the maximal common prefix of two character lists; models the
first `while` loop of `diffStrings`. -/
def commonPrefixLen : JStr → JStr → Nat
  | a :: as, b :: bs => if a = b then commonPrefixLen as bs + 1 else 0
  | _, _ => 0

/-- The hand-rolled `diffStrings` of `extension.ts`: trim the common prefix,
then the common suffix of the remainder (the second `while` loop runs while
the end characters agree and neither side's residual is exhausted, so its
count is the common suffix length of the reversals capped by both residual
lengths), and emit up to four index-range records. -/
def diffStrings (oldStr newStr : JStr) : List CharChange :=
  let pLen := commonPrefixLen oldStr newStr
  let oldSuffixLength0 := oldStr.length - pLen
  let newSuffixLength0 := newStr.length - pLen
  let suffixLength := min (commonPrefixLen oldStr.reverse newStr.reverse)
    (min oldSuffixLength0 newSuffixLength0)
  let oldSuffixLength := oldSuffixLength0 - suffixLength
  let newSuffixLength := newSuffixLength0 - suffixLength
  (if pLen > 0 then [⟨.unchanged, 0, pLen⟩] else []) ++
  (if oldSuffixLength > 0 then [⟨.removed, pLen, pLen + oldSuffixLength⟩] else []) ++
  (if newSuffixLength > 0 then [⟨.added, pLen, pLen + newSuffixLength⟩] else []) ++
  (if suffixLength > 0 then [⟨.unchanged, oldStr.length - suffixLength, oldStr.length⟩] else [])

/-- A change record of the npm `diff` library (`Diff.Change`): a text value
with `added` / `removed` flags (both false on a common segment). -/
structure DiffChange where
  value : JStr
  added : Bool
  removed : Bool
deriving DecidableEq

/-- Modelled from the spec: the diff parser module's `diffStrings` delegates to
`Diff.diffChars` of the npm `diff` library, which is not part of this
repository's sources.  Per the spec's Intra-line Differ contract (§4.2) the
algorithm is unconstrained as long as segments reconstruct both inputs in
order, adjacent equal-kind runs are merged, identical inputs give a single
`equal` segment and an empty side gives a single segment covering the other
side; this model trims the common prefix and suffix and emits the residuals
as one `removed` and one `inserted` segment. -/
def diffChars (oldStr newStr : JStr) : List DiffChange :=
  let pLen := commonPrefixLen oldStr newStr
  let suffixLength := min (commonPrefixLen oldStr.reverse newStr.reverse)
    (min (oldStr.length - pLen) (newStr.length - pLen))
  let oldMid := oldStr.length - pLen - suffixLength
  let newMid := newStr.length - pLen - suffixLength
  (if pLen > 0 then [⟨oldStr.take pLen, false, false⟩] else []) ++
  (if oldMid > 0 then [⟨(oldStr.drop pLen).take oldMid, false, true⟩] else []) ++
  (if newMid > 0 then [⟨(newStr.drop pLen).take newMid, true, false⟩] else []) ++
  (if suffixLength > 0 then [⟨oldStr.drop (oldStr.length - suffixLength), false, false⟩] else [])

/-- A single-line editor range: `(line, startCol) .. (line, endCol)`, 0-based,
half-open.  Every range the provider builds lies on one line; the line index
is an integer because `hunk.newStart - 1` may be negative. -/
structure LineRange where
  line : Int
  startCol : Nat
  endCol : Nat
deriving DecidableEq

/-- The `DecorationOptionsMap` filled by `calculateDecorations`; marker records
keep their `after.contentText` payload (the deleted text). -/
structure DecorationOptionsMap where
  addedLines : List LineRange
  modifiedLines : List LineRange
  addedTexts : List LineRange
  deletedCharacterMarkers : List (LineRange × JStr)
deriving DecidableEq

/-- The `DiffCalculationResult` of the provider: the standard decoration map
plus the inline deleted-line options, each of which keeps its range and its
`after.contentText` display string. -/
structure DiffCalculationResult where
  decorationOptions : DecorationOptionsMap
  inlineDeletedLineOptions : List (LineRange × JStr)
deriving DecidableEq

def DecorationOptionsMap.empty : DecorationOptionsMap := ⟨[], [], [], []⟩

def DecorationOptionsMap.append (a b : DecorationOptionsMap) : DecorationOptionsMap :=
  ⟨a.addedLines ++ b.addedLines, a.modifiedLines ++ b.modifiedLines,
   a.addedTexts ++ b.addedTexts, a.deletedCharacterMarkers ++ b.deletedCharacterMarkers⟩

def DiffCalculationResult.empty : DiffCalculationResult := ⟨.empty, []⟩

def DiffCalculationResult.append (a b : DiffCalculationResult) : DiffCalculationResult :=
  ⟨a.decorationOptions.append b.decorationOptions,
   a.inlineDeletedLineOptions ++ b.inlineDeletedLineOptions⟩

/-- Text of the document line at an integer index (`document.lineAt(i).text`);
out-of-range reads never occur on the guarded paths the theorems cover. -/
def lineTextAt (doc : List JStr) (i : Int) : JStr :=
  if 0 ≤ i then doc.getD i.toNat [] else []

/-- The inner `for (const change of charChanges)` loop of the modification
branch: walk the change records left to right with the column cursor
`currentCharacterIndex`, collecting `addedTexts` ranges and zero-width
`deletedCharacterMarkers` (which carry the deleted text and do not advance
the cursor). -/
def processCharChanges (editorLineIndex : Int) :
    List DiffChange → Nat → List LineRange × List (LineRange × JStr)
  | [], _ => ([], [])
  | change :: rest, currentCharacterIndex =>
    let changeLength := change.value.length
    if change.added then
      let r := processCharChanges editorLineIndex rest (currentCharacterIndex + changeLength)
      (⟨editorLineIndex, currentCharacterIndex, currentCharacterIndex + changeLength⟩ :: r.1, r.2)
    else if change.removed then
      let r := processCharChanges editorLineIndex rest currentCharacterIndex
      (r.1, (⟨editorLineIndex, currentCharacterIndex, currentCharacterIndex⟩, change.value) :: r.2)
    else
      processCharChanges editorLineIndex rest (currentCharacterIndex + changeLength)

/-- The `i > 0 && hunk.lines[i - 1].type === 'removed'` test of the `added`
branch, with `prev` standing for `hunk.lines[i - 1]` (none when `i = 0`). -/
def prevIsRemoved (prev : Option LineRecord) : Bool :=
  match prev with
  | some p => p.type = LineType.removed
  | none => false

/-- Content of the preceding record (`hunk.lines[i - 1].content`); only read
when `prevIsRemoved` holds, so the `none` default is never relevant. -/
def prevContent (prev : Option LineRecord) : JStr :=
  match prev with
  | some p => p.content
  | none => []

/-- The `i + 1 < hunk.lines.length && hunk.lines[i + 1].type === 'added'` test
of the `removed` branch, with `rest` standing for the records after `i`. -/
def isModificationNext (rest : List LineRecord) : Bool :=
  match rest with
  | next :: _ => next.type = LineType.added
  | [] => false

/-- The per-hunk line loop of `calculateDecorations`.  `prev` is the record at
`i - 1` (none at `i = 0`), mirroring the `hunk.lines[i - 1]` lookups; the
`removed` branch instead inspects `hunk.lines[i + 1]`, the head of the rest.
Each iteration's pushes are collected and appended before the rest of the
loop's output. -/
def processHunkLines (doc : List JStr) (oldStart : Nat) :
    Option LineRecord → List LineRecord → Int → Nat → DiffCalculationResult
  | _, [], _, _ => DiffCalculationResult.empty
  | prev, lineInfo :: rest, editorLineIndex, oldLineIndexInHunk =>
    match lineInfo.type with
    | .added =>
      let here : DiffCalculationResult :=
        if editorLineIndex < (doc.length : Int) then
          if prevIsRemoved prev then
            let charChanges := diffChars (prevContent prev) lineInfo.content
            let r := processCharChanges editorLineIndex charChanges 0
            ⟨⟨[], [⟨editorLineIndex, 0, 0⟩], r.1, r.2⟩, []⟩
          else
            let currentText := lineTextAt doc editorLineIndex
            ⟨⟨[⟨editorLineIndex, 0, 0⟩], [],
              if currentText.length > 0 then [⟨editorLineIndex, 0, currentText.length⟩] else [],
              []⟩, []⟩
        else DiffCalculationResult.empty
      here.append
        (processHunkLines doc oldStart (some lineInfo) rest (editorLineIndex + 1) oldLineIndexInHunk)
    | .removed =>
      let here : DiffCalculationResult :=
        if isModificationNext rest then DiffCalculationResult.empty
        else
          let precedingEditorLineIndex := editorLineIndex - 1
          let firstDeletedLineNumber := oldStart + oldLineIndexInHunk
          let formattedLine : JStr :=
            ('-' :: ' ' :: (Nat.repr firstDeletedLineNumber).data) ++
              (':' :: ' ' :: lineInfo.content)
          if 0 ≤ precedingEditorLineIndex then
            if precedingEditorLineIndex < (doc.length : Int) then
              ⟨.empty, [(⟨precedingEditorLineIndex, 0,
                (lineTextAt doc precedingEditorLineIndex).length⟩, formattedLine)]⟩
            else DiffCalculationResult.empty
          else
            if 0 < doc.length then
              ⟨.empty, [(⟨0, 0, (lineTextAt doc 0).length⟩, formattedLine)]⟩
            else DiffCalculationResult.empty
      here.append
        (processHunkLines doc oldStart (some lineInfo) rest editorLineIndex (oldLineIndexInHunk + 1))
    | .unchanged =>
      processHunkLines doc oldStart (some lineInfo) rest (editorLineIndex + 1) (oldLineIndexInHunk + 1)

/-- `DiffDecorationProvider.calculateDecorations`: process every hunk in order,
starting each at `editorLineIndex = hunk.newStart - 1` and
`oldLineIndexInHunk = 0`, and collect all pushes in push order. -/
def calculateDecorations (parsedDiff : ParsedDiff) (doc : List JStr) : DiffCalculationResult :=
  parsedDiff.hunks.foldl
    (fun acc hunk =>
      acc.append (processHunkLines doc hunk.oldStart none hunk.lines ((hunk.newStart : Int) - 1) 0))
    DiffCalculationResult.empty

/-! ## Basic lemmas about the result algebra -/

@[simp]
theorem DecorationOptionsMap.map_empty_append (a : DecorationOptionsMap) :
    DecorationOptionsMap.append .empty a = a := by
  cases a; simp [DecorationOptionsMap.append, DecorationOptionsMap.empty]

@[simp]
theorem DecorationOptionsMap.map_append_empty (a : DecorationOptionsMap) :
    DecorationOptionsMap.append a .empty = a := by
  cases a; simp [DecorationOptionsMap.append, DecorationOptionsMap.empty]

@[simp]
theorem DiffCalculationResult.result_empty_append (a : DiffCalculationResult) :
    DiffCalculationResult.append .empty a = a := by
  cases a; simp [DiffCalculationResult.append, DiffCalculationResult.empty]

@[simp]
theorem DiffCalculationResult.result_append_empty (a : DiffCalculationResult) :
    DiffCalculationResult.append a .empty = a := by
  cases a; simp [DiffCalculationResult.append, DiffCalculationResult.empty]

theorem DiffCalculationResult.append_assoc (a b c : DiffCalculationResult) :
    DiffCalculationResult.append (DiffCalculationResult.append a b) c =
      DiffCalculationResult.append a (DiffCalculationResult.append b c) := by
  simp [DiffCalculationResult.append, DecorationOptionsMap.append]

/-! ## Lemmas about commonPrefixLen -/

theorem commonPrefixLen_nil_left (b : JStr) : commonPrefixLen [] b = 0 := by
  cases b <;> rfl

theorem commonPrefixLen_self (a : JStr) : commonPrefixLen a a = a.length := by
  induction a with
  | nil => rfl
  | cons x xs ih => simp [commonPrefixLen, ih]

theorem commonPrefixLen_le_left (a : JStr) : ∀ b : JStr, commonPrefixLen a b ≤ a.length := by
  induction a with
  | nil => intro b; simp [commonPrefixLen_nil_left]
  | cons x xs ih =>
    intro b
    cases b with
    | nil => simp [commonPrefixLen]
    | cons y ys =>
      by_cases h : x = y
      · simpa [commonPrefixLen, h] using ih ys
      · simp [commonPrefixLen, h]

theorem commonPrefixLen_le_right (a : JStr) : ∀ b : JStr, commonPrefixLen a b ≤ b.length := by
  induction a with
  | nil => intro b; simp [commonPrefixLen_nil_left]
  | cons x xs ih =>
    intro b
    cases b with
    | nil => simp [commonPrefixLen]
    | cons y ys =>
      by_cases h : x = y
      · simpa [commonPrefixLen, h] using ih ys
      · simp [commonPrefixLen, h]

theorem take_commonPrefixLen (a : JStr) :
    ∀ b : JStr, a.take (commonPrefixLen a b) = b.take (commonPrefixLen a b) := by
  induction a with
  | nil => intro b; simp [commonPrefixLen_nil_left]
  | cons x xs ih =>
    intro b
    cases b with
    | nil => simp [commonPrefixLen]
    | cons y ys =>
      by_cases h : x = y
      · simp [commonPrefixLen, h, ih ys]
      · simp [commonPrefixLen, h]

theorem take_eq_of_le_commonPrefixLen (a b : JStr) (n : Nat)
    (h : n ≤ commonPrefixLen a b) : a.take n = b.take n := by
  have h1 : a.take n = (a.take (commonPrefixLen a b)).take n := by
    rw [List.take_take, Nat.min_eq_left h]
  have h2 : b.take n = (b.take (commonPrefixLen a b)).take n := by
    rw [List.take_take, Nat.min_eq_left h]
  rw [h1, h2, take_commonPrefixLen]

/-! ## Slicing lemmas used for the reconstruction properties -/

theorem take_mid_drop (a : JStr) (p s : Nat) (hp : p ≤ a.length) (hs : s ≤ a.length - p) :
    a.take p ++ ((a.drop p).take (a.length - p - s) ++ a.drop (a.length - s)) = a := by
  have hadd : p + (a.length - p - s) = a.length - s := by omega
  have h1 : a.take p ++ (a.drop p).take (a.length - p - s) = a.take (a.length - s) := by
    rw [← hadd, List.take_add]
  rw [← List.append_assoc, h1, List.take_append_drop]

theorem drop_take_suffix (a : JStr) (s : Nat) (hs : s ≤ a.length) :
    (a.drop (a.length - s)).take s = a.drop (a.length - s) := by
  apply List.take_of_length_le
  rw [List.length_drop]
  omega

theorem drop_suffix_eq (a b : JStr) (s : Nat)
    (h : s ≤ commonPrefixLen a.reverse b.reverse) :
    a.drop (a.length - s) = b.drop (b.length - s) := by
  have ha : a.drop (a.length - s) = (a.reverse.take s).reverse := by
    rw [List.reverse_take, List.reverse_reverse, List.length_reverse]
  have hb : b.drop (b.length - s) = (b.reverse.take s).reverse := by
    rw [List.reverse_take, List.reverse_reverse, List.length_reverse]
  rw [ha, hb, take_eq_of_le_commonPrefixLen a.reverse b.reverse s h]

/-! ## C5: segment concatenation reconstructs both inputs -/

/-- Text covered by an index-range change record of the hand-rolled
`diffStrings`, read from the string its indices refer to. -/
def sliceAt (s : JStr) (c : CharChange) : JStr :=
  (s.drop c.start).take (c.endIdx - c.start)

/-- Text covered by a `diffStrings` change record: `added` ranges index the new
string, `removed` ranges the old string, and `unchanged` ranges denote text
common to both (their indices refer to the old string). -/
def segText (a b : JStr) (c : CharChange) : JStr :=
  if c.type = LineType.added then sliceAt b c else sliceAt a c

theorem collapse_if_list {β : Type} (c : Prop) [Decidable c] (X : List β) (h : ¬c → X = []) :
    (if c then X else []) = X := by
  by_cases hc : c
  · simp [hc]
  · simp [hc, h hc]

theorem filter_map_flatten_opt {α β : Type} (q : α → Bool) (f : α → List β) (c : Prop)
    [Decidable c] (x : α) :
    (List.map f (List.filter q (if c then [x] else []))).flatten =
      if c then (if q x then f x else []) else [] := by
  by_cases hc : c
  · by_cases hq : q x <;> simp [hc, hq]
  · simp [hc]

/-- Claim C5: for every pair of strings, concatenating in order the text
covered by the equal and removed segments of `diffStrings(a, b)` (both the
hand-rolled index-range version of `extension.ts` and the value-carrying
`diffChars` used by the diff parser module) reconstructs `a` exactly, and
concatenating the equal and added segments reconstructs `b` exactly. -/
theorem diffStrings_reconstructs (a b : JStr) :
    (((diffStrings a b).filter (fun c => c.type ≠ LineType.added)).map (segText a b)).flatten = a
    ∧ (((diffStrings a b).filter (fun c => c.type ≠ LineType.removed)).map (segText a b)).flatten = b
    ∧ (((diffChars a b).filter (fun c => !c.added)).map DiffChange.value).flatten = a
    ∧ (((diffChars a b).filter (fun c => !c.removed)).map DiffChange.value).flatten = b := by
  have hp : commonPrefixLen a b ≤ a.length := commonPrefixLen_le_left a b
  have hp' : commonPrefixLen a b ≤ b.length := commonPrefixLen_le_right a b
  set p := commonPrefixLen a b with hpdef
  set s := min (commonPrefixLen a.reverse b.reverse) (min (a.length - p) (b.length - p))
    with hsdef
  have hsk : s ≤ commonPrefixLen a.reverse b.reverse := Nat.min_le_left _ _
  have hsa : s ≤ a.length - p :=
    Nat.le_trans (Nat.min_le_right _ _) (Nat.min_le_left _ _)
  have hsb : s ≤ b.length - p :=
    Nat.le_trans (Nat.min_le_right _ _) (Nat.min_le_right _ _)
  have hsla : s ≤ a.length := Nat.le_trans hsa (Nat.sub_le _ _)
  have hslb : s ≤ b.length := Nat.le_trans hsb (Nat.sub_le _ _)
  refine ⟨?_, ?_, ?_, ?_⟩
  · simp only [diffStrings, ← hpdef, ← hsdef]
    rw [List.filter_append, List.filter_append, List.filter_append,
      List.map_append, List.map_append, List.map_append,
      List.flatten_append, List.flatten_append, List.flatten_append,
      filter_map_flatten_opt, filter_map_flatten_opt, filter_map_flatten_opt,
      filter_map_flatten_opt]
    simp only [segText, sliceAt]
    simp only [decide_not]
    simp
    rw [collapse_if_list (0 < p) _ (by intro h; simp [Nat.not_lt, Nat.le_zero] at h; simp [h]),
      collapse_if_list (s < a.length - p) _
        (by intro h; simp [show a.length - p - s = 0 by omega]),
      collapse_if_list (0 < s) _ (by intro h; simp [Nat.not_lt, Nat.le_zero] at h; simp [h])]
    rw [Nat.sub_sub_self hsla, drop_take_suffix a s hsla]
    exact take_mid_drop a p s hp hsa
  · simp only [diffStrings, ← hpdef, ← hsdef]
    rw [List.filter_append, List.filter_append, List.filter_append,
      List.map_append, List.map_append, List.map_append,
      List.flatten_append, List.flatten_append, List.flatten_append,
      filter_map_flatten_opt, filter_map_flatten_opt, filter_map_flatten_opt,
      filter_map_flatten_opt]
    simp only [segText, sliceAt]
    simp only [decide_not]
    simp
    rw [collapse_if_list (0 < p) _ (by intro h; simp [Nat.not_lt, Nat.le_zero] at h; simp [h]),
      collapse_if_list (s < b.length - p) _
        (by intro h; simp [show b.length - p - s = 0 by omega]),
      collapse_if_list (0 < s) _ (by intro h; simp [Nat.not_lt, Nat.le_zero] at h; simp [h])]
    rw [Nat.sub_sub_self hsla, drop_take_suffix a s hsla]
    rw [hpdef] at hp ⊢
    rw [take_commonPrefixLen a b, drop_suffix_eq a b s hsk, ← hpdef]
    exact take_mid_drop b p s hp' hsb
  · simp only [diffChars, ← hpdef, ← hsdef]
    rw [List.filter_append, List.filter_append, List.filter_append,
      List.map_append, List.map_append, List.map_append,
      List.flatten_append, List.flatten_append, List.flatten_append,
      filter_map_flatten_opt, filter_map_flatten_opt, filter_map_flatten_opt,
      filter_map_flatten_opt]
    simp
    rw [collapse_if_list (0 < p) _ (by intro h; simp [Nat.not_lt, Nat.le_zero] at h; simp [h]),
      collapse_if_list (s < a.length - p) _
        (by intro h; simp [show a.length - p - s = 0 by omega]),
      collapse_if_list (0 < s) _
        (by intro h; simp [Nat.not_lt, Nat.le_zero] at h; simp [h, List.drop_length])]
    exact take_mid_drop a p s hp hsa
  · simp only [diffChars, ← hpdef, ← hsdef]
    rw [List.filter_append, List.filter_append, List.filter_append,
      List.map_append, List.map_append, List.map_append,
      List.flatten_append, List.flatten_append, List.flatten_append,
      filter_map_flatten_opt, filter_map_flatten_opt, filter_map_flatten_opt,
      filter_map_flatten_opt]
    simp
    rw [collapse_if_list (0 < p) _ (by intro h; simp [Nat.not_lt, Nat.le_zero] at h; simp [h]),
      collapse_if_list (s < b.length - p) _
        (by intro h; simp [show b.length - p - s = 0 by omega]),
      collapse_if_list (0 < s) _
        (by intro h; simp [Nat.not_lt, Nat.le_zero] at h; simp [h, List.drop_length])]
    rw [hpdef] at hp ⊢
    rw [take_commonPrefixLen a b, drop_suffix_eq a b s hsk, ← hpdef]
    exact take_mid_drop b p s hp' hsb

/-! ## C8: degenerate inputs of the hand-rolled diffStrings -/

theorem commonPrefixLen_nil_right (a : JStr) : commonPrefixLen a [] = 0 := by
  cases a <;> rfl

/-- Claim C8: `diffStrings(a, a)` returns exactly one `unchanged` segment
covering all of `a` (for non-empty `a`); `diffStrings('', s)` returns exactly
one `added` segment covering all of `s`, and `diffStrings(s, '')` exactly one
`removed` segment covering all of `s` (for non-empty `s`). -/
theorem diffStrings_degenerate (a s : JStr) (ha : a ≠ []) (hs : s ≠ []) :
    diffStrings a a = [⟨LineType.unchanged, 0, a.length⟩]
    ∧ diffStrings [] s = [⟨LineType.added, 0, s.length⟩]
    ∧ diffStrings s [] = [⟨LineType.removed, 0, s.length⟩] := by
  refine ⟨?_, ?_, ?_⟩
  · have hl : 0 < a.length := List.length_pos.mpr ha
    simp [diffStrings, commonPrefixLen_self, hl]
  · have hl : 0 < s.length := List.length_pos.mpr hs
    simp [diffStrings, commonPrefixLen_nil_left, hl]
  · have hl : 0 < s.length := List.length_pos.mpr hs
    simp [diffStrings, commonPrefixLen_nil_right, hl]

/-- Witness for C8 at concrete inputs. -/
theorem diffStrings_degenerate_witness :
    ("ab".data ≠ [] ∧ "xyz".data ≠ [])
    ∧ (diffStrings "ab".data "ab".data = [⟨LineType.unchanged, 0, 2⟩]
       ∧ diffStrings [] "xyz".data = [⟨LineType.added, 0, 3⟩]
       ∧ diffStrings "xyz".data [] = [⟨LineType.removed, 0, 3⟩]) :=
  ⟨⟨by decide, by decide⟩, diffStrings_degenerate "ab".data "xyz".data (by decide) (by decide)⟩

/-! ## C9: determinism of calculateDecorations -/

/-- Content equality of two `DiffCalculationResult`s: the same ranges and
payloads in the same order, category by category. -/
def resultContentEq (r1 r2 : DiffCalculationResult) : Prop :=
  r1.decorationOptions.addedLines = r2.decorationOptions.addedLines
  ∧ r1.decorationOptions.modifiedLines = r2.decorationOptions.modifiedLines
  ∧ r1.decorationOptions.addedTexts = r2.decorationOptions.addedTexts
  ∧ r1.decorationOptions.deletedCharacterMarkers = r2.decorationOptions.deletedCharacterMarkers
  ∧ r1.inlineDeletedLineOptions = r2.inlineDeletedLineOptions

/-- Claim C9: `calculateDecorations` is a pure function of the hunk sequence
and the document snapshot — two invocations on the same inputs return results
equal in content, category by category, in the same order. -/
theorem calculateDecorations_deterministic (parsedDiff : ParsedDiff) (doc : List JStr) :
    resultContentEq (calculateDecorations parsedDiff doc) (calculateDecorations parsedDiff doc) :=
  ⟨rfl, rfl, rfl, rfl, rfl⟩

/-! ## C3: pure-deletion ghost placement -/

/-- A result holding only inline deleted-line options. -/
def inlineOnly (g : List (LineRange × JStr)) : DiffCalculationResult :=
  ⟨.empty, g⟩

/-- Ghost placement rule as the spec states it: the descriptor with display
text `- <num>: <content>` attaches to `editorLine - 1` when that line exists,
falls back to line 0 when `editorLine - 1 < 0` and the document is non-empty,
and is dropped otherwise. -/
def pureDeletionGhost (doc : List JStr) (num : Nat) (content : JStr) (editorLine : Int) :
    List (LineRange × JStr) :=
  let formatted : JStr := ('-' :: ' ' :: (Nat.repr num).data) ++ (':' :: ' ' :: content)
  if 0 ≤ editorLine - 1 ∧ editorLine - 1 < (doc.length : Int) then
    [(⟨editorLine - 1, 0, (lineTextAt doc (editorLine - 1)).length⟩, formatted)]
  else if editorLine - 1 < 0 ∧ 0 < doc.length then
    [(⟨0, 0, (lineTextAt doc 0).length⟩, formatted)]
  else []

/-- Claim C3: processing a `removed` record emits at most one deleted-line
ghost — none when the next record is `added` (modification absorption), and
otherwise exactly the ghost placed by the bounds rule of `pureDeletionGhost`,
with display text `- <oldStart + oldLineCursor>: <content>`; `editorLine`
does not advance while `oldLineCursor` always advances by 1. -/
theorem processHunkLines_removed_eq (doc : List JStr) (oldStart : Nat)
    (prev : Option LineRecord) (content : JStr) (rest : List LineRecord)
    (editorLine : Int) (oldIdx : Nat) :
    processHunkLines doc oldStart prev (⟨LineType.removed, content⟩ :: rest) editorLine oldIdx =
      DiffCalculationResult.append
        (inlineOnly (if isModificationNext rest then []
          else pureDeletionGhost doc (oldStart + oldIdx) content editorLine))
        (processHunkLines doc oldStart (some ⟨LineType.removed, content⟩) rest
          editorLine (oldIdx + 1)) := by
  simp only [processHunkLines]
  congr 1
  by_cases hm : isModificationNext rest
  · simp [hm, inlineOnly, DiffCalculationResult.empty, DecorationOptionsMap.empty]
  · simp only [hm, Bool.false_eq_true, if_false]
    unfold pureDeletionGhost inlineOnly
    split_ifs with h1 h2 h3 h4 h5 h6 h7 <;>
      first
        | rfl
        | (exfalso; omega)

theorem pureDeletionGhost_length_le (doc : List JStr) (num : Nat) (content : JStr)
    (editorLine : Int) : (pureDeletionGhost doc num content editorLine).length ≤ 1 := by
  unfold pureDeletionGhost
  split_ifs <;> simp

theorem removed_step_ghost (doc : List JStr) (oldStart : Nat) (prev : Option LineRecord)
    (content : JStr) (rest : List LineRecord) (editorLine : Int) (oldIdx : Nat) :
    processHunkLines doc oldStart prev (⟨LineType.removed, content⟩ :: rest) editorLine oldIdx =
      DiffCalculationResult.append
        (inlineOnly (if isModificationNext rest then []
          else pureDeletionGhost doc (oldStart + oldIdx) content editorLine))
        (processHunkLines doc oldStart (some ⟨LineType.removed, content⟩) rest
          editorLine (oldIdx + 1))
    ∧ (pureDeletionGhost doc (oldStart + oldIdx) content editorLine).length ≤ 1 :=
  ⟨processHunkLines_removed_eq doc oldStart prev content rest editorLine oldIdx,
    pureDeletionGhost_length_le doc (oldStart + oldIdx) content editorLine⟩

/-! ## C2: modification pairs and the character-segment walk -/

/-- Claim C2: for a modification pair (previous record `removed`, current
record `added`, editor line in bounds) the emitted annotations are exactly
the walk over `diffChars(old, new)` from column 0 plus one whole-line
modified range, and the walk satisfies the cursor discipline: an equal
segment advances the cursor emitting nothing, an inserted segment emits one
range `[cursor, cursor + len)` and advances, a deleted segment emits one
zero-width marker at the cursor carrying the deleted text and does not
advance. -/
theorem processHunkLines_added_mod_eq (doc : List JStr) (oldStart : Nat)
    (prev : Option LineRecord) (newContent : JStr) (rest : List LineRecord)
    (editorLine : Int) (oldIdx : Nat) (hprev : prevIsRemoved prev = true)
    (hlt : editorLine < (doc.length : Int)) :
    processHunkLines doc oldStart prev (⟨LineType.added, newContent⟩ :: rest)
        editorLine oldIdx =
      DiffCalculationResult.append
        ⟨⟨[], [⟨editorLine, 0, 0⟩],
          (processCharChanges editorLine (diffChars (prevContent prev) newContent) 0).1,
          (processCharChanges editorLine (diffChars (prevContent prev) newContent) 0).2⟩, []⟩
        (processHunkLines doc oldStart (some ⟨LineType.added, newContent⟩) rest
          (editorLine + 1) oldIdx) := by
  simp only [processHunkLines, hprev, if_pos hlt]
  simp

theorem processHunkLines_added_pure_eq (doc : List JStr) (oldStart : Nat)
    (prev : Option LineRecord) (newContent : JStr) (rest : List LineRecord)
    (editorLine : Int) (oldIdx : Nat) (hprev : prevIsRemoved prev = false) :
    processHunkLines doc oldStart prev (⟨LineType.added, newContent⟩ :: rest)
        editorLine oldIdx =
      DiffCalculationResult.append
        (if editorLine < (doc.length : Int) then
          ⟨⟨[⟨editorLine, 0, 0⟩], [],
            (if (lineTextAt doc editorLine).length > 0 then
              [⟨editorLine, 0, (lineTextAt doc editorLine).length⟩] else []), []⟩, []⟩
        else DiffCalculationResult.empty)
        (processHunkLines doc oldStart (some ⟨LineType.added, newContent⟩) rest
          (editorLine + 1) oldIdx) := by
  by_cases hel : editorLine < (doc.length : Int) <;>
    simp [processHunkLines, hprev, hel]

theorem processCharChanges_equal_eq (editorLine : Int) (c : DiffChange)
    (segs : List DiffChange) (cur : Nat) (ha : c.added = false) (hr : c.removed = false) :
    processCharChanges editorLine (c :: segs) cur =
      processCharChanges editorLine segs (cur + c.value.length) := by
  simp [processCharChanges, ha, hr]

theorem processCharChanges_added_eq (editorLine : Int) (c : DiffChange)
    (segs : List DiffChange) (cur : Nat) (ha : c.added = true) :
    processCharChanges editorLine (c :: segs) cur =
      (⟨editorLine, cur, cur + c.value.length⟩ ::
          (processCharChanges editorLine segs (cur + c.value.length)).1,
        (processCharChanges editorLine segs (cur + c.value.length)).2) := by
  simp [processCharChanges, ha]

theorem processCharChanges_removed_eq (editorLine : Int) (c : DiffChange)
    (segs : List DiffChange) (cur : Nat) (ha : c.added = false) (hr : c.removed = true) :
    processCharChanges editorLine (c :: segs) cur =
      ((processCharChanges editorLine segs cur).1,
        (⟨editorLine, cur, cur⟩, c.value) :: (processCharChanges editorLine segs cur).2) := by
  simp [processCharChanges, ha, hr]

theorem added_modification_step (doc : List JStr) (oldStart : Nat)
    (oldContent newContent : JStr) (rest : List LineRecord) (editorLine : Int) (oldIdx : Nat)
    (_hnonneg : 0 ≤ editorLine) (hlt : editorLine < (doc.length : Int)) :
    (processHunkLines doc oldStart (some ⟨LineType.removed, oldContent⟩)
        (⟨LineType.added, newContent⟩ :: rest) editorLine oldIdx =
      DiffCalculationResult.append
        ⟨⟨[], [⟨editorLine, 0, 0⟩],
          (processCharChanges editorLine (diffChars oldContent newContent) 0).1,
          (processCharChanges editorLine (diffChars oldContent newContent) 0).2⟩, []⟩
        (processHunkLines doc oldStart (some ⟨LineType.added, newContent⟩) rest
          (editorLine + 1) oldIdx))
    ∧ (∀ (c : DiffChange) (segs : List DiffChange) (cur : Nat),
        c.added = false → c.removed = false →
        processCharChanges editorLine (c :: segs) cur =
          processCharChanges editorLine segs (cur + c.value.length))
    ∧ (∀ (c : DiffChange) (segs : List DiffChange) (cur : Nat),
        c.added = true →
        processCharChanges editorLine (c :: segs) cur =
          (⟨editorLine, cur, cur + c.value.length⟩ ::
              (processCharChanges editorLine segs (cur + c.value.length)).1,
            (processCharChanges editorLine segs (cur + c.value.length)).2))
    ∧ (∀ (c : DiffChange) (segs : List DiffChange) (cur : Nat),
        c.added = false → c.removed = true →
        processCharChanges editorLine (c :: segs) cur =
          ((processCharChanges editorLine segs cur).1,
            (⟨editorLine, cur, cur⟩, c.value) :: (processCharChanges editorLine segs cur).2)) := by
  refine ⟨?_, ?_, ?_, ?_⟩
  · have h := processHunkLines_added_mod_eq doc oldStart (some ⟨LineType.removed, oldContent⟩)
      newContent rest editorLine oldIdx rfl hlt
    simpa [prevContent] using h
  · intro c segs cur ha hr
    exact processCharChanges_equal_eq editorLine c segs cur ha hr
  · intro c segs cur ha
    exact processCharChanges_added_eq editorLine c segs cur ha
  · intro c segs cur ha hr
    exact processCharChanges_removed_eq editorLine c segs cur ha hr

/-- Witness for C2: the modification pair `-ab` / `+axb` on a one-line document
at editor line 0 emits exactly the whole-line-modified range plus the walk
output. -/
theorem added_modification_step_witness :
    ((0 : Int) ≤ 0 ∧ (0 : Int) < (([[]] : List JStr).length : Int))
    ∧ processHunkLines [[]] 1 (some ⟨LineType.removed, "ab".data⟩)
        [⟨LineType.added, "axb".data⟩] 0 0 =
      DiffCalculationResult.append
        ⟨⟨[], [⟨0, 0, 0⟩],
          (processCharChanges 0 (diffChars "ab".data "axb".data) 0).1,
          (processCharChanges 0 (diffChars "ab".data "axb".data) 0).2⟩, []⟩
        (processHunkLines [[]] 1 (some ⟨LineType.added, "axb".data⟩) [] 1 0) :=
  ⟨⟨by decide, by decide⟩,
    (added_modification_step [[]] 1 "ab".data "axb".data [] 0 0 (by decide) (by decide)).1⟩

/-! ## C1: the local modification-pairing rule on removed/added runs -/

@[simp]
theorem append_addedLines (a b : DiffCalculationResult) :
    (DiffCalculationResult.append a b).decorationOptions.addedLines =
      a.decorationOptions.addedLines ++ b.decorationOptions.addedLines := rfl

@[simp]
theorem append_modifiedLines (a b : DiffCalculationResult) :
    (DiffCalculationResult.append a b).decorationOptions.modifiedLines =
      a.decorationOptions.modifiedLines ++ b.decorationOptions.modifiedLines := rfl

@[simp]
theorem append_addedTexts (a b : DiffCalculationResult) :
    (DiffCalculationResult.append a b).decorationOptions.addedTexts =
      a.decorationOptions.addedTexts ++ b.decorationOptions.addedTexts := rfl

@[simp]
theorem append_deletedCharacterMarkers (a b : DiffCalculationResult) :
    (DiffCalculationResult.append a b).decorationOptions.deletedCharacterMarkers =
      a.decorationOptions.deletedCharacterMarkers ++
        b.decorationOptions.deletedCharacterMarkers := rfl

@[simp]
theorem append_inlineDeletedLineOptions (a b : DiffCalculationResult) :
    (DiffCalculationResult.append a b).inlineDeletedLineOptions =
      a.inlineDeletedLineOptions ++ b.inlineDeletedLineOptions := rfl

/-- Removed records with the given contents. -/
def removedRecs (cs : List JStr) : List LineRecord :=
  cs.map (fun c => ⟨LineType.removed, c⟩)

/-- Added records with the given contents. -/
def addedRecs (cs : List JStr) : List LineRecord :=
  cs.map (fun c => ⟨LineType.added, c⟩)

/-- Ghosts emitted for a run of pure deletions starting at old-line offset
`oi`: one candidate ghost per removed content, all anchored at the same
editor line (removed records do not advance it), with consecutive old-file
line numbers. -/
def deletionRunGhosts (doc : List JStr) (oldStart : Nat) :
    List JStr → Int → Nat → List (LineRange × JStr)
  | [], _, _ => []
  | c :: cs, editorLine, oi =>
    pureDeletionGhost doc (oldStart + oi) c editorLine ++
      deletionRunGhosts doc oldStart cs editorLine (oi + 1)

/-- Bundle emitted for a run of pure additions starting at the given editor
line: per record one whole-line-added range (when in bounds) plus the
full-line added-text range for non-empty live lines, advancing one line per
record. -/
def pureAdditionBundle (doc : List JStr) : List JStr → Int → DiffCalculationResult
  | [], _ => DiffCalculationResult.empty
  | _ :: cs, editorLine =>
    DiffCalculationResult.append
      (if editorLine < (doc.length : Int) then
        ⟨⟨[⟨editorLine, 0, 0⟩], [],
          (if (lineTextAt doc editorLine).length > 0 then
            [⟨editorLine, 0, (lineTextAt doc editorLine).length⟩] else []), []⟩, []⟩
      else DiffCalculationResult.empty)
      (pureAdditionBundle doc cs (editorLine + 1))

/-- The whole-line-added ranges of a pure-addition run: one per record whose
editor line is in bounds. -/
def pureAddedLines (doc : List JStr) : List JStr → Int → List LineRange
  | [], _ => []
  | _ :: cs, editorLine =>
    (if editorLine < (doc.length : Int) then [⟨editorLine, 0, 0⟩] else []) ++
      pureAddedLines doc cs (editorLine + 1)

theorem inlineOnly_append (g1 g2 : List (LineRange × JStr)) :
    DiffCalculationResult.append (inlineOnly g1) (inlineOnly g2) = inlineOnly (g1 ++ g2) := by
  simp [inlineOnly, DiffCalculationResult.append]

theorem isModificationNext_removedRun (cs : List JStr) (rc : JStr) (rest : List LineRecord) :
    isModificationNext (removedRecs cs ++ ⟨LineType.removed, rc⟩ :: rest) = false := by
  cases cs <;> simp [removedRecs, isModificationNext]

theorem pureAdditionBundle_modifiedLines (doc : List JStr) (cs : List JStr) :
    ∀ editorLine : Int,
      (pureAdditionBundle doc cs editorLine).decorationOptions.modifiedLines = [] := by
  induction cs with
  | nil => intro el; rfl
  | cons c cs ih =>
    intro el
    simp only [pureAdditionBundle, append_modifiedLines, ih, List.append_nil]
    split_ifs <;> rfl

theorem pureAdditionBundle_inline (doc : List JStr) (cs : List JStr) :
    ∀ editorLine : Int,
      (pureAdditionBundle doc cs editorLine).inlineDeletedLineOptions = [] := by
  induction cs with
  | nil => intro el; rfl
  | cons c cs ih =>
    intro el
    simp only [pureAdditionBundle, append_inlineDeletedLineOptions, ih, List.append_nil]
    split_ifs <;> rfl

theorem pureAdditionBundle_addedLines (doc : List JStr) (cs : List JStr) :
    ∀ editorLine : Int,
      (pureAdditionBundle doc cs editorLine).decorationOptions.addedLines =
        pureAddedLines doc cs editorLine := by
  induction cs with
  | nil => intro el; rfl
  | cons c cs ih =>
    intro el
    simp only [pureAdditionBundle, pureAddedLines, append_addedLines, ih]
    split_ifs <;> rfl

theorem processHunkLines_removed_prev_irrel (doc : List JStr) (oldStart : Nat)
    (p q : Option LineRecord) (rc : JStr) (rest : List LineRecord)
    (editorLine : Int) (oi : Nat) :
    processHunkLines doc oldStart p (⟨LineType.removed, rc⟩ :: rest) editorLine oi =
      processHunkLines doc oldStart q (⟨LineType.removed, rc⟩ :: rest) editorLine oi := by
  simp only [processHunkLines]

theorem processHunkLines_removedRun (doc : List JStr) (oldStart : Nat) (cs : List JStr) :
    ∀ (prev : Option LineRecord) (rc : JStr) (rest : List LineRecord)
      (editorLine : Int) (oi : Nat),
      processHunkLines doc oldStart prev (removedRecs cs ++ ⟨LineType.removed, rc⟩ :: rest)
          editorLine oi =
        DiffCalculationResult.append
          (inlineOnly (deletionRunGhosts doc oldStart cs editorLine oi))
          (processHunkLines doc oldStart prev (⟨LineType.removed, rc⟩ :: rest)
            editorLine (oi + cs.length)) := by
  induction cs with
  | nil =>
    intro prev rc rest el oi
    simp [removedRecs, deletionRunGhosts, inlineOnly, DiffCalculationResult.append,
      DecorationOptionsMap.append, DecorationOptionsMap.empty]
  | cons c cs ih =>
    intro prev rc rest el oi
    have hhead : removedRecs (c :: cs) ++ ⟨LineType.removed, rc⟩ :: rest =
        ⟨LineType.removed, c⟩ :: (removedRecs cs ++ ⟨LineType.removed, rc⟩ :: rest) := by
      simp [removedRecs]
    rw [hhead, processHunkLines_removed_eq, isModificationNext_removedRun]
    simp only [Bool.false_eq_true, if_false]
    rw [ih (some ⟨LineType.removed, c⟩) rc rest el (oi + 1)]
    rw [← DiffCalculationResult.append_assoc, inlineOnly_append]
    have harith : oi + 1 + cs.length = oi + (cs.length + 1) := by omega
    simp only [deletionRunGhosts, List.length_cons, harith]
    rw [processHunkLines_removed_prev_irrel doc oldStart prev (some ⟨LineType.removed, c⟩)
      rc rest el (oi + (cs.length + 1))]

theorem processHunkLines_addedRun (doc : List JStr) (oldStart : Nat) (cs : List JStr) :
    ∀ (pc : JStr) (rest : List LineRecord) (editorLine : Int) (oi : Nat),
      processHunkLines doc oldStart (some ⟨LineType.added, pc⟩) (addedRecs cs ++ rest)
          editorLine oi =
        DiffCalculationResult.append
          (pureAdditionBundle doc cs editorLine)
          (processHunkLines doc oldStart (some ⟨LineType.added, cs.getLastD pc⟩) rest
            (editorLine + cs.length) oi) := by
  induction cs with
  | nil =>
    intro pc rest el oi
    simp [addedRecs, pureAdditionBundle]
  | cons c cs ih =>
    intro pc rest el oi
    have hhead : addedRecs (c :: cs) ++ rest = ⟨LineType.added, c⟩ :: (addedRecs cs ++ rest) := by
      simp [addedRecs]
    rw [hhead, processHunkLines_added_pure_eq doc oldStart (some ⟨LineType.added, pc⟩) c
      (addedRecs cs ++ rest) el oi rfl]
    rw [ih c rest (el + 1) oi]
    rw [← DiffCalculationResult.append_assoc]
    have hlast : (c :: cs).getLastD pc = cs.getLastD c := List.getLastD_cons pc c cs
    have harith : el + 1 + (cs.length : Int) = el + ((cs.length : Nat) + 1 : Nat) := by
      push_cast; ring
    rw [hlast]
    simp only [pureAdditionBundle, List.length_cons]
    rw [harith]

@[simp]
theorem inlineOnly_addedLines (g : List (LineRange × JStr)) :
    (inlineOnly g).decorationOptions.addedLines = [] := rfl

@[simp]
theorem inlineOnly_modifiedLines (g : List (LineRange × JStr)) :
    (inlineOnly g).decorationOptions.modifiedLines = [] := rfl

@[simp]
theorem inlineOnly_inline (g : List (LineRange × JStr)) :
    (inlineOnly g).inlineDeletedLineOptions = g := rfl

/-- Claim C1: for a run of `N = |rs'| + 1` removed records followed by
`M = |as'| + 1` added records, only the last removed record pairs with the
first added record: the pair produces exactly one whole-line-modified range
(and no whole-line-added range or deleted-line ghost), every earlier removed
record is a pure deletion emitting its own ghost candidate, and every added
record after the first is a pure addition.  The continuation resumes after
the run with the editor line advanced by `M` and the old-line cursor by `N`. -/
theorem removed_added_run_pairing (doc : List JStr) (oldStart : Nat) (prev : Option LineRecord)
    (rs' : List JStr) (r a : JStr) (as' : List JStr) (suf : List LineRecord)
    (editorLine : Int) (oi : Nat)
    (_hnonneg : 0 ≤ editorLine) (hlt : editorLine < (doc.length : Int)) :
    (processHunkLines doc oldStart prev
        (removedRecs (rs' ++ [r]) ++ addedRecs (a :: as') ++ suf)
        editorLine oi).inlineDeletedLineOptions =
      deletionRunGhosts doc oldStart rs' editorLine oi ++
        (processHunkLines doc oldStart (some ⟨LineType.added, as'.getLastD a⟩) suf
          (editorLine + 1 + as'.length) (oi + rs'.length + 1)).inlineDeletedLineOptions
    ∧ (processHunkLines doc oldStart prev
        (removedRecs (rs' ++ [r]) ++ addedRecs (a :: as') ++ suf)
        editorLine oi).decorationOptions.modifiedLines =
      ⟨editorLine, 0, 0⟩ ::
        (processHunkLines doc oldStart (some ⟨LineType.added, as'.getLastD a⟩) suf
          (editorLine + 1 + as'.length) (oi + rs'.length + 1)).decorationOptions.modifiedLines
    ∧ (processHunkLines doc oldStart prev
        (removedRecs (rs' ++ [r]) ++ addedRecs (a :: as') ++ suf)
        editorLine oi).decorationOptions.addedLines =
      pureAddedLines doc as' (editorLine + 1) ++
        (processHunkLines doc oldStart (some ⟨LineType.added, as'.getLastD a⟩) suf
          (editorLine + 1 + as'.length) (oi + rs'.length + 1)).decorationOptions.addedLines := by
  have hsplit : removedRecs (rs' ++ [r]) ++ addedRecs (a :: as') ++ suf =
      removedRecs rs' ++
        ⟨LineType.removed, r⟩ :: (⟨LineType.added, a⟩ :: (addedRecs as' ++ suf)) := by
    simp [removedRecs, addedRecs]
  have hmod : isModificationNext (⟨LineType.added, a⟩ :: (addedRecs as' ++ suf)) = true := rfl
  have hfull : processHunkLines doc oldStart prev
      (removedRecs (rs' ++ [r]) ++ addedRecs (a :: as') ++ suf) editorLine oi =
      DiffCalculationResult.append
        (inlineOnly (deletionRunGhosts doc oldStart rs' editorLine oi))
        (DiffCalculationResult.append (inlineOnly [])
          (DiffCalculationResult.append
            ⟨⟨[], [⟨editorLine, 0, 0⟩],
              (processCharChanges editorLine (diffChars r a) 0).1,
              (processCharChanges editorLine (diffChars r a) 0).2⟩, []⟩
            (DiffCalculationResult.append (pureAdditionBundle doc as' (editorLine + 1))
              (processHunkLines doc oldStart (some ⟨LineType.added, as'.getLastD a⟩) suf
                (editorLine + 1 + as'.length) (oi + rs'.length + 1))))) := by
    rw [hsplit,
      processHunkLines_removedRun doc oldStart rs' prev r
        (⟨LineType.added, a⟩ :: (addedRecs as' ++ suf)) editorLine oi,
      processHunkLines_removed_eq doc oldStart prev r
        (⟨LineType.added, a⟩ :: (addedRecs as' ++ suf)) editorLine (oi + rs'.length)]
    simp only [hmod, if_true]
    rw [processHunkLines_added_mod_eq doc oldStart (some ⟨LineType.removed, r⟩) a
        (addedRecs as' ++ suf) editorLine (oi + rs'.length + 1) rfl hlt,
      processHunkLines_addedRun doc oldStart as' a suf (editorLine + 1) (oi + rs'.length + 1)]
    simp [prevContent]
  refine ⟨?_, ?_, ?_⟩
  · rw [hfull]
    simp [pureAdditionBundle_inline]
  · rw [hfull]
    simp [pureAdditionBundle_modifiedLines]
  · rw [hfull]
    simp [pureAdditionBundle_addedLines]

/-- Witness for C1 at the minimal run: one removed record `-ab` followed by one
added record `+ax` on a one-line document. -/
theorem removed_added_run_pairing_witness :
    ((0 : Int) ≤ 0 ∧ (0 : Int) < (([[]] : List JStr).length : Int))
    ∧ ((processHunkLines [[]] 1 none
          (removedRecs (([] : List JStr) ++ ["ab".data]) ++ addedRecs ("ax".data :: []) ++ [])
          0 0).inlineDeletedLineOptions =
        deletionRunGhosts [[]] 1 [] 0 0 ++
          (processHunkLines [[]] 1 (some ⟨LineType.added, ([] : List JStr).getLastD "ax".data⟩)
            [] (0 + 1 + (([] : List JStr).length : Int))
            (0 + ([] : List JStr).length + 1)).inlineDeletedLineOptions
      ∧ (processHunkLines [[]] 1 none
          (removedRecs (([] : List JStr) ++ ["ab".data]) ++ addedRecs ("ax".data :: []) ++ [])
          0 0).decorationOptions.modifiedLines =
        ⟨0, 0, 0⟩ ::
          (processHunkLines [[]] 1 (some ⟨LineType.added, ([] : List JStr).getLastD "ax".data⟩)
            [] (0 + 1 + (([] : List JStr).length : Int))
            (0 + ([] : List JStr).length + 1)).decorationOptions.modifiedLines
      ∧ (processHunkLines [[]] 1 none
          (removedRecs (([] : List JStr) ++ ["ab".data]) ++ addedRecs ("ax".data :: []) ++ [])
          0 0).decorationOptions.addedLines =
        pureAddedLines [[]] [] (0 + 1) ++
          (processHunkLines [[]] 1 (some ⟨LineType.added, ([] : List JStr).getLastD "ax".data⟩)
            [] (0 + 1 + (([] : List JStr).length : Int))
            (0 + ([] : List JStr).length + 1)).decorationOptions.addedLines) :=
  ⟨⟨by decide, by decide⟩,
    removed_added_run_pairing [[]] 1 none [] "ab".data "ax".data [] [] 0 0
      (by decide) (by decide)⟩

/-! ## C4: bounds handling of calculateDecorations -/

/-- Counterexample to claim C4 as stated: for the modification pair `-ab` /
`+axb` over a document whose only line is empty, the inserted-text range
`[1, 2)` on line 0 extends past the live line's length 0, yet it is kept in
the returned bundle — `calculateDecorations` performs no column bounds
check, it only drops annotations whose line index is out of range. -/
theorem calculateDecorations_keeps_overflowing_columns :
    (calculateDecorations
        ⟨[⟨1, 1, 1, 1, [⟨LineType.removed, "ab".data⟩, ⟨LineType.added, "axb".data⟩]⟩]⟩
        [[]]).decorationOptions.addedTexts = [⟨0, 1, 2⟩]
    ∧ (lineTextAt [[]] 0).length = 0
    ∧ ¬(2 ≤ (lineTextAt [[]] 0).length) := by
  refine ⟨by decide, by decide, by decide⟩

/-- A range's line index lies inside a document of `len` lines. -/
def rangeLineInBounds (len : Nat) (r : LineRange) : Prop :=
  0 ≤ r.line ∧ r.line < (len : Int)

/-- All annotations of a result have line indices inside the document. -/
def resultLinesInBounds (res : DiffCalculationResult) (len : Nat) : Prop :=
  (∀ r ∈ res.decorationOptions.addedLines, rangeLineInBounds len r)
  ∧ (∀ r ∈ res.decorationOptions.modifiedLines, rangeLineInBounds len r)
  ∧ (∀ r ∈ res.decorationOptions.addedTexts, rangeLineInBounds len r)
  ∧ (∀ m ∈ res.decorationOptions.deletedCharacterMarkers, rangeLineInBounds len m.1)
  ∧ (∀ g ∈ res.inlineDeletedLineOptions, rangeLineInBounds len g.1)

theorem resultLinesInBounds_append (a b : DiffCalculationResult) (len : Nat)
    (ha : resultLinesInBounds a len) (hb : resultLinesInBounds b len) :
    resultLinesInBounds (DiffCalculationResult.append a b) len := by
  obtain ⟨ha1, ha2, ha3, ha4, ha5⟩ := ha
  obtain ⟨hb1, hb2, hb3, hb4, hb5⟩ := hb
  refine ⟨?_, ?_, ?_, ?_, ?_⟩ <;>
    simp only [append_addedLines, append_modifiedLines, append_addedTexts,
      append_deletedCharacterMarkers, append_inlineDeletedLineOptions,
      List.forall_mem_append] <;>
    constructor <;> assumption

theorem resultLinesInBounds_empty (len : Nat) :
    resultLinesInBounds DiffCalculationResult.empty len := by
  refine ⟨?_, ?_, ?_, ?_, ?_⟩ <;> simp [DiffCalculationResult.empty, DecorationOptionsMap.empty]

theorem processCharChanges_lines (editorLine : Int) :
    ∀ (segs : List DiffChange) (cur : Nat),
      (∀ r ∈ (processCharChanges editorLine segs cur).1, r.line = editorLine)
      ∧ (∀ m ∈ (processCharChanges editorLine segs cur).2, m.1.line = editorLine) := by
  intro segs
  induction segs with
  | nil => intro cur; simp [processCharChanges]
  | cons c rest ih =>
    intro cur
    by_cases ha : c.added
    · simpa [processCharChanges, ha] using ih (cur + c.value.length)
    · by_cases hr : c.removed
      · simpa [processCharChanges, ha, hr] using ih cur
      · simpa [processCharChanges, ha, hr] using ih (cur + c.value.length)

theorem pureDeletionGhost_lines (doc : List JStr) (num : Nat) (content : JStr)
    (editorLine : Int) :
    ∀ g ∈ pureDeletionGhost doc num content editorLine,
      rangeLineInBounds doc.length g.1 := by
  unfold pureDeletionGhost
  split_ifs with h1 h2 <;> simp [rangeLineInBounds] <;> omega

theorem processHunkLines_inBounds (doc : List JStr) (oldStart : Nat) :
    ∀ (lines : List LineRecord) (prev : Option LineRecord) (editorLine : Int) (oi : Nat),
      0 ≤ editorLine →
      resultLinesInBounds (processHunkLines doc oldStart prev lines editorLine oi)
        doc.length := by
  intro lines
  induction lines with
  | nil =>
    intro prev el oi _
    exact resultLinesInBounds_empty doc.length
  | cons lineInfo rest ih =>
    intro prev el oi hel
    obtain ⟨ty, content⟩ := lineInfo
    cases ty with
    | added =>
      simp only [processHunkLines]
      apply resultLinesInBounds_append
      · split_ifs with h1 h2 h3
        · refine ⟨by simp, ?_, ?_, ?_, by simp⟩
          · intro r hr
            simp at hr
            subst hr
            exact ⟨hel, h1⟩
          · intro r hr
            simp at hr
            have hline := (processCharChanges_lines el
              (diffChars (prevContent prev) content) 0).1 r hr
            exact ⟨by rw [hline]; exact hel, by rw [hline]; exact h1⟩
          · intro m hm
            simp at hm
            have hline := (processCharChanges_lines el
              (diffChars (prevContent prev) content) 0).2 m hm
            exact ⟨by rw [hline]; exact hel, by rw [hline]; exact h1⟩
        · refine ⟨?_, by simp, ?_, by simp, by simp⟩
          · intro r hr
            simp at hr
            subst hr
            exact ⟨hel, h1⟩
          · intro r hr
            simp at hr
            subst hr
            exact ⟨hel, h1⟩
        · refine ⟨?_, by simp, by simp, by simp, by simp⟩
          · intro r hr
            simp at hr
            subst hr
            exact ⟨hel, h1⟩
        · exact resultLinesInBounds_empty doc.length
      · exact ih (some ⟨LineType.added, content⟩) (el + 1) oi (by omega)
    | removed =>
      rw [processHunkLines_removed_eq]
      apply resultLinesInBounds_append
      · refine ⟨by simp, by simp, ?_, ?_, ?_⟩
        · simp [inlineOnly, DecorationOptionsMap.empty]
        · simp [inlineOnly, DecorationOptionsMap.empty]
        · simp only [inlineOnly_inline]
          split_ifs with hm
          · simp
          · exact pureDeletionGhost_lines doc (oldStart + oi) content el
      · exact ih (some ⟨LineType.removed, content⟩) el (oi + 1) hel
    | unchanged =>
      simp only [processHunkLines]
      exact ih (some ⟨LineType.unchanged, content⟩) (el + 1) (oi + 1) (by omega)

theorem foldl_hunks_inBounds (doc : List JStr) :
    ∀ (hs : List Hunk) (acc : DiffCalculationResult),
      resultLinesInBounds acc doc.length →
      (∀ h ∈ hs, 1 ≤ h.newStart) →
      resultLinesInBounds
        (hs.foldl
          (fun acc hunk =>
            acc.append (processHunkLines doc hunk.oldStart none hunk.lines
              ((hunk.newStart : Int) - 1) 0))
          acc)
        doc.length := by
  intro hs
  induction hs with
  | nil =>
    intro acc hacc _
    simpa using hacc
  | cons h hs ih =>
    intro acc hacc hstart
    simp only [List.foldl_cons]
    apply ih
    · apply resultLinesInBounds_append _ _ _ hacc
      apply processHunkLines_inBounds
      have h1 : 1 ≤ h.newStart := hstart h (by simp)
      omega
    · intro h' hh'
      exact hstart h' (by simp [hh'])

/-- Amended claim C4: `calculateDecorations` drops annotations whose computed
editor line index is out of range (and re-anchors or drops ghosts per the
deletion fallback rule), so if every hunk's `newStart` is at least 1, every
annotation in the returned bundle has a line index inside the document.  No
column bounds are checked (see the counterexample): inserted-text ranges and
markers may extend past the live line's length. -/
theorem calculateDecorations_lines_inBounds (parsedDiff : ParsedDiff) (doc : List JStr)
    (hstart : ∀ h ∈ parsedDiff.hunks, 1 ≤ h.newStart) :
    resultLinesInBounds (calculateDecorations parsedDiff doc) doc.length := by
  unfold calculateDecorations
  exact foldl_hunks_inBounds doc parsedDiff.hunks DiffCalculationResult.empty
    (resultLinesInBounds_empty doc.length) hstart

/-- Witness for the amended C4 on a concrete mixed hunk. -/
theorem calculateDecorations_lines_inBounds_witness :
    (∀ h ∈ (⟨[⟨1, 2, 1, 2, [⟨LineType.unchanged, "k".data⟩, ⟨LineType.removed, "d".data⟩,
        ⟨LineType.removed, "ab".data⟩, ⟨LineType.added, "axb".data⟩]⟩]⟩ : ParsedDiff).hunks,
      1 ≤ h.newStart)
    ∧ resultLinesInBounds
        (calculateDecorations
          ⟨[⟨1, 2, 1, 2, [⟨LineType.unchanged, "k".data⟩, ⟨LineType.removed, "d".data⟩,
            ⟨LineType.removed, "ab".data⟩, ⟨LineType.added, "axb".data⟩]⟩]⟩
          ["k".data, "axb".data])
        (["k".data, "axb".data] : List JStr).length :=
  ⟨by decide,
    calculateDecorations_lines_inBounds
      ⟨[⟨1, 2, 1, 2, [⟨LineType.unchanged, "k".data⟩, ⟨LineType.removed, "d".data⟩,
        ⟨LineType.removed, "ab".data⟩, ⟨LineType.added, "axb".data⟩]⟩]⟩
      ["k".data, "axb".data] (by decide)⟩

/-! ## C7: optional count groups default to 1 -/

theorem takeWhile_digits_append (g : JStr) (hg : ∀ c ∈ g, c.isDigit = true)
    (c : Char) (hc : c.isDigit = false) (r : JStr) :
    (g ++ c :: r).takeWhile Char.isDigit = g := by
  induction g with
  | nil => simp [List.takeWhile, hc]
  | cons d g ih =>
    have hd : d.isDigit = true := hg d (by simp)
    simp only [List.cons_append, List.takeWhile_cons, hd, if_true]
    rw [ih (fun x hx => hg x (by simp [hx]))]

theorem dropWhile_digits_append (g : JStr) (hg : ∀ c ∈ g, c.isDigit = true)
    (c : Char) (hc : c.isDigit = false) (r : JStr) :
    (g ++ c :: r).dropWhile Char.isDigit = c :: r := by
  induction g with
  | nil => simp [List.dropWhile, hc]
  | cons d g ih =>
    have hd : d.isDigit = true := hg d (by simp)
    simp only [List.cons_append, List.dropWhile_cons, hd, if_true]
    exact ih (fun x hx => hg x (by simp [hx]))

theorem takeWhile_nondigit_head (c : Char) (hc : c.isDigit = false) (r : JStr) :
    (c :: r).takeWhile Char.isDigit = [] := by
  simp [List.takeWhile_cons, hc]

theorem dropWhile_nondigit_head (c : Char) (hc : c.isDigit = false) (r : JStr) :
    (c :: r).dropWhile Char.isDigit = c :: r := by
  simp [List.dropWhile_cons, hc]

theorem splitLines_no_newline (l : JStr) (h : '\n' ∉ l) : splitLines l = [l] := by
  induction l with
  | nil => rfl
  | cons c cs ih =>
    have hc : ¬c = '\n' := fun hx => h (by simp [hx])
    simp only [splitLines, hc, if_false]
    rw [ih (fun hx => h (by simp [hx]))]

/-- A hunk header line of the form `@@ -g1[,g2] +g3[,g4] @@`, with optional
count groups. -/
def mkHeaderLine (g1 : JStr) (g2 : Option JStr) (g3 : JStr) (g4 : Option JStr) : JStr :=
  ['@', '@', ' ', '-'] ++
    (g1 ++ ((match g2 with | some b => ',' :: b | none => []) ++
      ([' ', '+'] ++ (g3 ++ ((match g4 with | some d => ',' :: d | none => []) ++
        [' ', '@', '@'])))))

theorem matchHunkHeader_mkHeaderLine (g1 g3 : JStr) (g2 g4 : Option JStr)
    (h1 : g1 ≠ []) (h1d : ∀ c ∈ g1, c.isDigit = true)
    (h3 : g3 ≠ []) (h3d : ∀ c ∈ g3, c.isDigit = true)
    (h2 : ∀ b, g2 = some b → b ≠ [] ∧ ∀ c ∈ b, c.isDigit = true)
    (h4 : ∀ d, g4 = some d → d ≠ [] ∧ ∀ c ∈ d, c.isDigit = true) :
    matchHunkHeader (mkHeaderLine g1 g2 g3 g4) =
      some (g1, g2.getD [], g3, g4.getD []) := by
  rcases g2 with _ | b <;> rcases g4 with _ | d
  · simp only [mkHeaderLine, List.nil_append, List.cons_append, List.append_nil]
    simp [matchHunkHeader, h1, h3,
      takeWhile_digits_append g1 h1d ' ' (by decide) ('+' :: (g3 ++ [' ', '@', '@'])),
      dropWhile_digits_append g1 h1d ' ' (by decide) ('+' :: (g3 ++ [' ', '@', '@'])),
      takeWhile_digits_append g3 h3d ' ' (by decide) ['@', '@'],
      dropWhile_digits_append g3 h3d ' ' (by decide) ['@', '@'],
      takeWhile_nondigit_head ' ' (by decide) ('+' :: (g3 ++ [' ', '@', '@'])),
      dropWhile_nondigit_head ' ' (by decide) ('+' :: (g3 ++ [' ', '@', '@'])),
      takeWhile_nondigit_head ' ' (by decide) ['@', '@'],
      dropWhile_nondigit_head ' ' (by decide) ['@', '@']]
  · obtain ⟨hd, hdd⟩ := h4 d rfl
    simp only [mkHeaderLine, List.nil_append, List.cons_append, List.append_nil]
    simp [matchHunkHeader, h1, h3, hd,
      takeWhile_digits_append g1 h1d ' ' (by decide)
        ('+' :: (g3 ++ ',' :: (d ++ [' ', '@', '@']))),
      dropWhile_digits_append g1 h1d ' ' (by decide)
        ('+' :: (g3 ++ ',' :: (d ++ [' ', '@', '@']))),
      takeWhile_digits_append g3 h3d ',' (by decide) (d ++ [' ', '@', '@']),
      dropWhile_digits_append g3 h3d ',' (by decide) (d ++ [' ', '@', '@']),
      takeWhile_digits_append d hdd ' ' (by decide) ['@', '@'],
      dropWhile_digits_append d hdd ' ' (by decide) ['@', '@'],
      takeWhile_nondigit_head ' ' (by decide)
        ('+' :: (g3 ++ ',' :: (d ++ [' ', '@', '@']))),
      dropWhile_nondigit_head ' ' (by decide)
        ('+' :: (g3 ++ ',' :: (d ++ [' ', '@', '@'])))]
  · obtain ⟨hb, hbd⟩ := h2 b rfl
    simp only [mkHeaderLine, List.nil_append, List.cons_append, List.append_nil]
    simp [matchHunkHeader, h1, h3, hb,
      takeWhile_digits_append g1 h1d ',' (by decide)
        (b ++ ' ' :: '+' :: (g3 ++ [' ', '@', '@'])),
      dropWhile_digits_append g1 h1d ',' (by decide)
        (b ++ ' ' :: '+' :: (g3 ++ [' ', '@', '@'])),
      takeWhile_digits_append b hbd ' ' (by decide) ('+' :: (g3 ++ [' ', '@', '@'])),
      dropWhile_digits_append b hbd ' ' (by decide) ('+' :: (g3 ++ [' ', '@', '@'])),
      takeWhile_digits_append g3 h3d ' ' (by decide) ['@', '@'],
      dropWhile_digits_append g3 h3d ' ' (by decide) ['@', '@'],
      takeWhile_nondigit_head ' ' (by decide) ['@', '@'],
      dropWhile_nondigit_head ' ' (by decide) ['@', '@']]
  · obtain ⟨hb, hbd⟩ := h2 b rfl
    obtain ⟨hd, hdd⟩ := h4 d rfl
    simp only [mkHeaderLine, List.nil_append, List.cons_append, List.append_nil]
    simp [matchHunkHeader, h1, h3, hb, hd,
      takeWhile_digits_append g1 h1d ',' (by decide)
        (b ++ ' ' :: '+' :: (g3 ++ ',' :: (d ++ [' ', '@', '@']))),
      dropWhile_digits_append g1 h1d ',' (by decide)
        (b ++ ' ' :: '+' :: (g3 ++ ',' :: (d ++ [' ', '@', '@']))),
      takeWhile_digits_append b hbd ' ' (by decide)
        ('+' :: (g3 ++ ',' :: (d ++ [' ', '@', '@']))),
      dropWhile_digits_append b hbd ' ' (by decide)
        ('+' :: (g3 ++ ',' :: (d ++ [' ', '@', '@']))),
      takeWhile_digits_append g3 h3d ',' (by decide) (d ++ [' ', '@', '@']),
      dropWhile_digits_append g3 h3d ',' (by decide) (d ++ [' ', '@', '@']),
      takeWhile_digits_append d hdd ' ' (by decide) ['@', '@'],
      dropWhile_digits_append d hdd ' ' (by decide) ['@', '@']]

theorem newline_not_mem_digits (g : JStr) (hg : ∀ c ∈ g, c.isDigit = true) : '\n' ∉ g :=
  fun hx => absurd (hg '\n' hx) (by decide)

/-- Claim C7: a hunk header whose count group(s) are omitted is still
recognized by `parseGitDiff`, and each omitted count is recorded as exactly 1,
while explicitly written groups are parsed as their decimal value.  The four
optional-group combinations are covered by quantifying over `g2`/`g4`. -/
theorem parseGitDiff_defaults_omitted_counts (g1 g3 : JStr) (g2 g4 : Option JStr)
    (h1 : g1 ≠ []) (h1d : ∀ c ∈ g1, c.isDigit = true)
    (h3 : g3 ≠ []) (h3d : ∀ c ∈ g3, c.isDigit = true)
    (h2 : ∀ b, g2 = some b → b ≠ [] ∧ ∀ c ∈ b, c.isDigit = true)
    (h4 : ∀ d, g4 = some d → d ≠ [] ∧ ∀ c ∈ d, c.isDigit = true) :
    parseGitDiff (mkHeaderLine g1 g2 g3 g4) =
      ⟨[⟨digitsVal g1, (g2.map digitsVal).getD 1,
         digitsVal g3, (g4.map digitsVal).getD 1, []⟩]⟩ := by
  have hne : mkHeaderLine g1 g2 g3 g4 ≠ [] := by simp [mkHeaderLine]
  have hnl : '\n' ∉ mkHeaderLine g1 g2 g3 g4 := by
    intro hm
    have hg1 := newline_not_mem_digits g1 h1d
    have hg3 := newline_not_mem_digits g3 h3d
    rcases g2 with _ | b <;> rcases g4 with _ | d
    · simp [mkHeaderLine, hg1, hg3] at hm
    · have hgd := newline_not_mem_digits d (h4 d rfl).2
      simp [mkHeaderLine, hg1, hg3, hgd] at hm
    · have hgb := newline_not_mem_digits b (h2 b rfl).2
      simp [mkHeaderLine, hg1, hg3, hgb] at hm
    · have hgb := newline_not_mem_digits b (h2 b rfl).2
      have hgd := newline_not_mem_digits d (h4 d rfl).2
      simp [mkHeaderLine, hg1, hg3, hgb, hgd] at hm
  unfold parseGitDiff
  rw [if_neg hne, splitLines_no_newline _ hnl]
  have hmatch := matchHunkHeader_mkHeaderLine g1 g3 g2 g4 h1 h1d h3 h3d h2 h4
  simp only [parseLinesDP, hmatch]
  rcases g2 with _ | b <;> rcases g4 with _ | d
  · simp [parseLinesDP]
  · obtain ⟨hd, hdd⟩ := h4 d rfl
    simp [parseLinesDP, hd]
  · obtain ⟨hb, hbd⟩ := h2 b rfl
    simp [parseLinesDP, hb]
  · obtain ⟨hb, hbd⟩ := h2 b rfl
    obtain ⟨hd, hdd⟩ := h4 d rfl
    simp [parseLinesDP, hb, hd]

/-- Witness for C7: the header `@@ -12 +3,4 @@` parses with `oldCount`
defaulted to 1 and `newCount` parsed as 4. -/
theorem parseGitDiff_defaults_omitted_counts_witness :
    ("12".data ≠ [] ∧ "3".data ≠ [])
    ∧ parseGitDiff (mkHeaderLine "12".data none "3".data (some "4".data)) =
        ⟨[⟨digitsVal "12".data, ((none : Option JStr).map digitsVal).getD 1,
           digitsVal "3".data, ((some "4".data).map digitsVal).getD 1, []⟩]⟩ :=
  ⟨⟨by decide, by decide⟩,
    parseGitDiff_defaults_omitted_counts "12".data "3".data none (some "4".data)
      (by decide) (by decide) (by decide) (by decide)
      (by intro b hb; cases hb) (by intro d hd; cases hd; exact ⟨by decide, by decide⟩)⟩

/-! ## C10: the two parseGitDiff implementations -/

/-- Counterexample to claim C10 as stated: on the header `@@ -3 +4 @@` (omitted
count groups) the diff parser module recognizes the hunk with counts
defaulted to 1, while the module-local parser of `extension.ts` requires
both commas and skips the line, producing no hunk at all. -/
theorem parseGitDiff_variants_disagree :
    parseGitDiff "@@ -3 +4 @@\n+x".data ≠ parseGitDiffExt "@@ -3 +4 @@\n+x".data := by
  decide

theorem matchHunkHeader_eq_none (l : JStr) (h : startsWithAtAt l = false) :
    matchHunkHeader l = none := by
  rcases l with _ | ⟨c1, _ | ⟨c2, t⟩⟩
  · rfl
  · unfold matchHunkHeader
    split
    · rename_i heq
      exact absurd (congrArg List.length heq) (by simp)
    · rfl
  · unfold matchHunkHeader
    split
    · rename_i heq
      injection heq with h1 heq2
      injection heq2 with h2 _
      subst h1
      subst h2
      simp [startsWithAtAt] at h
    · rfl

theorem matchHunkHeaderStrict_imp (l : JStr) (g1 g2 g3 g4 : JStr)
    (h : matchHunkHeaderStrict l = some (g1, g2, g3, g4)) :
    matchHunkHeader l = some (g1, g2, g3, g4) ∧ g2 ≠ [] ∧ g4 ≠ [] := by
  unfold matchHunkHeaderStrict at h
  split at h
  case h_2 => exact absurd h (by simp)
  rename_i r0
  simp only [List.span_eq_take_drop] at h
  split at h
  case isTrue => exact absurd h (by simp)
  rename_i hg1
  split at h
  case h_2 => exact absurd h (by simp)
  rename_i r2 heq1
  split at h
  case isTrue => exact absurd h (by simp)
  rename_i hg2
  split at h
  case h_2 => exact absurd h (by simp)
  rename_i r4 heq2
  split at h
  case isTrue => exact absurd h (by simp)
  rename_i hg3
  split at h
  case h_2 => exact absurd h (by simp)
  rename_i r6 heq3
  split at h
  case isTrue => exact absurd h (by simp)
  rename_i hg4
  split at h
  case h_2 => exact absurd h (by simp)
  rename_i tail heq4
  injection h with h'
  injection h' with e1 h'
  injection h' with e2 h'
  injection h' with e3 e4
  subst e1
  subst e2
  subst e3
  subst e4
  refine ⟨?_, hg2, hg4⟩
  simp [matchHunkHeader, List.span_eq_take_drop, hg1, hg3, heq1, heq2, heq3, heq4]

theorem parseLines_agree (ls : List JStr) :
    ∀ (cur : Option Hunk) (acc : List Hunk),
      (∀ l ∈ ls, startsWithAtAt l = true → (matchHunkHeaderStrict l).isSome = true) →
      parseLinesDP ls cur acc = parseLinesExt ls cur acc := by
  induction ls with
  | nil => intro cur acc _; cases cur <;> rfl
  | cons l ls ih =>
    intro cur acc hls
    have hrest : ∀ l' ∈ ls, startsWithAtAt l' = true → (matchHunkHeaderStrict l').isSome = true :=
      fun l' hl' => hls l' (List.mem_cons_of_mem l hl')
    by_cases hat : startsWithAtAt l = true
    · obtain ⟨⟨g1, g2, g3, g4⟩, hsome⟩ := Option.isSome_iff_exists.mp (hls l (by simp) hat)
      obtain ⟨hdp, hb, hd⟩ := matchHunkHeaderStrict_imp l g1 g2 g3 g4 hsome
      rcases l with _ | ⟨c, t⟩
      · simp [startsWithAtAt] at hat
      · have hsearch : searchHunkHeaderStrict (c :: t) = some (g1, g2, g3, g4) := by
          simp [searchHunkHeaderStrict, hsome]
        simp only [parseLinesDP, parseLinesExt, hdp, hat, if_true, hsearch]
        cases cur <;> simp only [hb, hd, if_neg] <;> exact ih _ _ hrest
    · have hat' : startsWithAtAt l = false := by simpa using hat
      have hdpnone := matchHunkHeader_eq_none l hat'
      simp only [parseLinesDP, parseLinesExt, hdpnone, hat', Bool.false_eq_true, if_false]
      cases cur with
      | none => exact ih _ _ hrest
      | some hh =>
        by_cases h1 : startsWithChar '+' l = true
        · simp only [h1, if_true]
          exact ih _ _ hrest
        · simp only [h1, Bool.false_eq_true, if_false]
          by_cases h2 : startsWithChar '-' l = true
          · simp only [h2, if_true]
            exact ih _ _ hrest
          · simp only [h2, Bool.false_eq_true, if_false]
            by_cases h3 : startsWithChar ' ' l = true
            · simp only [h3, if_true]
              exact ih _ _ hrest
            · simp only [h3, Bool.false_eq_true, if_false]
              exact ih _ _ hrest

/-- Amended claim C10: the two `parseGitDiff` implementations agree on every
diff text in which each line starting with `@@` is a full-form header
accepted by the `extension.ts` regex (explicit `-a,b +c,d` counts at the
start of the line); they differ otherwise (see the counterexample, where a
header with omitted counts is parsed only by the diff parser module). -/
theorem parseGitDiff_variants_agree (input : JStr)
    (hheaders : ∀ l ∈ splitLines input,
      startsWithAtAt l = true → (matchHunkHeaderStrict l).isSome = true) :
    parseGitDiff input = parseGitDiffExt input := by
  unfold parseGitDiff parseGitDiffExt
  by_cases hinput : input = []
  · subst hinput
    rfl
  · rw [if_neg hinput]
    exact congrArg ParsedDiff.mk (parseLines_agree (splitLines input) none [] hheaders)

/-- Witness for the amended C10 on a concrete full-form diff. -/
theorem parseGitDiff_variants_agree_witness :
    (∀ l ∈ splitLines "@@ -1,2 +3,4 @@\n+a\n-b\n x".data,
      startsWithAtAt l = true → (matchHunkHeaderStrict l).isSome = true)
    ∧ parseGitDiff "@@ -1,2 +3,4 @@\n+a\n-b\n x".data =
        parseGitDiffExt "@@ -1,2 +3,4 @@\n+a\n-b\n x".data :=
  ⟨by decide, parseGitDiff_variants_agree "@@ -1,2 +3,4 @@\n+a\n-b\n x".data (by decide)⟩

/-! ## C6: hunk line counts versus header counts -/

/-- Number of non-`added` records (removed plus unchanged): the lines of the
old file covered by the hunk. -/
def countNonAdded (lines : List LineRecord) : Nat :=
  lines.countP (fun r => decide (r.type ≠ LineType.added))

/-- Number of non-`removed` records (added plus unchanged): the lines of the
new file covered by the hunk. -/
def countNonRemoved (lines : List LineRecord) : Nat :=
  lines.countP (fun r => decide (r.type ≠ LineType.removed))

/-- The count invariant of the spec's data model for one hunk. -/
def countsOk (h : Hunk) : Prop :=
  countNonAdded h.lines = h.oldCount ∧ countNonRemoved h.lines = h.newCount

/-- The count invariant for every hunk of a parse result. -/
def allCountsOk (p : ParsedDiff) : Prop :=
  ∀ h ∈ p.hunks, countsOk h

/-- Counterexample to claim C6 as stated: the parser copies header counts
verbatim without validating them against the hunk body, so the input
`@@ -1,5 +1,5 @@` with a single context line yields a hunk with
`oldCount = 5` but only one non-`added` record. -/
theorem parseGitDiff_counts_not_validated :
    (parseGitDiff "@@ -1,5 +1,5 @@\n x".data).hunks =
      [⟨1, 5, 1, 5, [⟨LineType.unchanged, "x".data⟩]⟩]
    ∧ ¬allCountsOk (parseGitDiff "@@ -1,5 +1,5 @@\n x".data) := by
  constructor
  · decide
  · intro hall
    have := hall ⟨1, 5, 1, 5, [⟨LineType.unchanged, "x".data⟩]⟩ (by decide)
    exact absurd this.1 (by decide)

/-- A line recognized as a hunk header by the diff parser module's regex. -/
def isHeaderLine (l : JStr) : Bool :=
  (matchHunkHeader l).isSome

/-- A body line consumed into the old file (`-` or space marker). -/
def oldMark (l : JStr) : Bool :=
  startsWithChar '-' l || startsWithChar ' ' l

/-- A body line consumed into the new file (`+` or space marker). -/
def newMark (l : JStr) : Bool :=
  startsWithChar '+' l || startsWithChar ' ' l

/-- Old-side line count of the body section before the next header. -/
def sectionOldCount (ls : List JStr) : Nat :=
  (ls.takeWhile (fun l => !isHeaderLine l)).countP oldMark

/-- New-side line count of the body section before the next header. -/
def sectionNewCount (ls : List JStr) : Nat :=
  (ls.takeWhile (fun l => !isHeaderLine l)).countP newMark

/-- The counts a header line declares, with omitted groups defaulted to 1. -/
def headerCounts (l : JStr) : Option (Nat × Nat) :=
  match matchHunkHeader l with
  | some (_, g2, _, g4) =>
    some (if g2 = [] then 1 else digitsVal g2, if g4 = [] then 1 else digitsVal g4)
  | none => none

/-- A diff text, split into lines, is count-consistent when every header's
declared counts match the marker counts of the body section that follows it,
up to the next header (non-header lines before the next header carry no
header of their own, so the recursion may simply walk the tail). -/
def consistentLines : List JStr → Bool
  | [] => true
  | l :: rest =>
    match headerCounts l with
    | some (oc, nc) =>
      (sectionOldCount rest == oc) && (sectionNewCount rest == nc) && consistentLines rest
    | none => consistentLines rest

theorem sectionOldCount_cons_header (l : JStr) (rest : List JStr)
    (h : isHeaderLine l = true) : sectionOldCount (l :: rest) = 0 := by
  simp [sectionOldCount, List.takeWhile_cons, h]

theorem sectionNewCount_cons_header (l : JStr) (rest : List JStr)
    (h : isHeaderLine l = true) : sectionNewCount (l :: rest) = 0 := by
  simp [sectionNewCount, List.takeWhile_cons, h]

theorem sectionOldCount_cons_body (l : JStr) (rest : List JStr)
    (h : isHeaderLine l = false) :
    sectionOldCount (l :: rest) = sectionOldCount rest + (if oldMark l then 1 else 0) := by
  simp [sectionOldCount, List.takeWhile_cons, h, List.countP_cons]

theorem sectionNewCount_cons_body (l : JStr) (rest : List JStr)
    (h : isHeaderLine l = false) :
    sectionNewCount (l :: rest) = sectionNewCount rest + (if newMark l then 1 else 0) := by
  simp [sectionNewCount, List.takeWhile_cons, h, List.countP_cons]

theorem consistentLines_cons_header (l : JStr) (rest : List JStr) (oc nc : Nat)
    (h : headerCounts l = some (oc, nc)) :
    consistentLines (l :: rest) =
      ((sectionOldCount rest == oc) && (sectionNewCount rest == nc) &&
        consistentLines rest) := by
  rw [consistentLines]
  simp [h]

theorem consistentLines_cons_body (l : JStr) (rest : List JStr)
    (h : headerCounts l = none) :
    consistentLines (l :: rest) = consistentLines rest := by
  rw [consistentLines]
  simp [h]

theorem countNonAdded_append (xs : List LineRecord) (r : LineRecord) :
    countNonAdded (xs ++ [r]) =
      countNonAdded xs + (if r.type = LineType.added then 0 else 1) := by
  by_cases h : r.type = LineType.added <;>
    simp [countNonAdded, List.countP_append, List.countP_cons, h]

theorem countNonRemoved_append (xs : List LineRecord) (r : LineRecord) :
    countNonRemoved (xs ++ [r]) =
      countNonRemoved xs + (if r.type = LineType.removed then 0 else 1) := by
  by_cases h : r.type = LineType.removed <;>
    simp [countNonRemoved, List.countP_append, List.countP_cons, h]

theorem parseLinesDP_countsOk (ls : List JStr) :
    ∀ (cur : Option Hunk) (acc : List Hunk),
      (∀ h ∈ acc, countsOk h) →
      (match cur with
       | none => consistentLines ls = true
       | some h =>
           countNonAdded h.lines + sectionOldCount ls = h.oldCount
           ∧ countNonRemoved h.lines + sectionNewCount ls = h.newCount
           ∧ consistentLines ls = true) →
      ∀ h ∈ parseLinesDP ls cur acc, countsOk h := by
  induction ls with
  | nil =>
    intro cur acc hacc hcur h' hh'
    cases cur with
    | none => exact hacc h' (by simpa [parseLinesDP] using hh')
    | some h =>
      simp only [parseLinesDP] at hh'
      rcases List.mem_append.mp hh' with hmem | hmem
      · exact hacc h' hmem
      · have heq : h' = h := by simpa using hmem
        subst heq
        obtain ⟨h1, h2, _⟩ := hcur
        exact ⟨by simpa [sectionOldCount] using h1, by simpa [sectionNewCount] using h2⟩
  | cons l rest ih =>
    intro cur acc hacc hcur
    cases hml : matchHunkHeader l with
    | some g =>
      obtain ⟨g1, g2, g3, g4⟩ := g
      have hisH : isHeaderLine l = true := by simp [isHeaderLine, hml]
      have hhc : headerCounts l =
          some (if g2 = [] then 1 else digitsVal g2, if g4 = [] then 1 else digitsVal g4) := by
        simp [headerCounts, hml]
      cases cur with
      | none =>
        rw [consistentLines_cons_header l rest _ _ hhc] at hcur
        simp only [Bool.and_eq_true, beq_iff_eq] at hcur
        obtain ⟨⟨hoc, hnc⟩, hnext⟩ := hcur
        intro h' hh'
        simp only [parseLinesDP, hml] at hh'
        refine ih (some ⟨digitsVal g1, if g2 = [] then 1 else digitsVal g2,
          digitsVal g3, if g4 = [] then 1 else digitsVal g4, []⟩) acc hacc ?_ h' hh'
        exact ⟨by simpa [countNonAdded] using hoc,
          by simpa [countNonRemoved] using hnc, hnext⟩
      | some hopen =>
        obtain ⟨h1, h2, h3⟩ := hcur
        rw [sectionOldCount_cons_header l rest hisH] at h1
        rw [sectionNewCount_cons_header l rest hisH] at h2
        rw [consistentLines_cons_header l rest _ _ hhc] at h3
        simp only [Bool.and_eq_true, beq_iff_eq] at h3
        obtain ⟨⟨hoc, hnc⟩, hnext⟩ := h3
        have hok : countsOk hopen := ⟨by omega, by omega⟩
        intro h' hh'
        simp only [parseLinesDP, hml] at hh'
        refine ih (some ⟨digitsVal g1, if g2 = [] then 1 else digitsVal g2,
          digitsVal g3, if g4 = [] then 1 else digitsVal g4, []⟩) (acc ++ [hopen]) ?_ ?_ h' hh'
        · intro x hx
          rcases List.mem_append.mp hx with hxm | hxm
          · exact hacc x hxm
          · have : x = hopen := by simpa using hxm
            subst this
            exact hok
        · exact ⟨by simpa [countNonAdded] using hoc,
            by simpa [countNonRemoved] using hnc, hnext⟩
    | none =>
      have hisH : isHeaderLine l = false := by simp [isHeaderLine, hml]
      have hhc : headerCounts l = none := by simp [headerCounts, hml]
      cases cur with
      | none =>
        rw [consistentLines_cons_body l rest hhc] at hcur
        intro h' hh'
        simp only [parseLinesDP, hml] at hh'
        exact ih none acc hacc hcur h' hh'
      | some hopen =>
        obtain ⟨h1, h2, h3⟩ := hcur
        rw [sectionOldCount_cons_body l rest hisH] at h1
        rw [sectionNewCount_cons_body l rest hisH] at h2
        rw [consistentLines_cons_body l rest hhc] at h3
        intro h' hh'
        simp only [parseLinesDP, hml] at hh'
        rcases l with _ | ⟨c, t⟩
        · simp only [startsWithChar, Bool.false_eq_true, if_false] at hh'
          refine ih (some hopen) acc hacc ?_ h' hh'
          refine ⟨?_, ?_, h3⟩
          · simpa [oldMark, startsWithChar] using h1
          · simpa [newMark, startsWithChar] using h2
        · by_cases hp : c = '+'
          · subst hp
            have hc1 : startsWithChar '+' ('+' :: t) = true := by simp [startsWithChar]
            simp only [hc1, if_true] at hh'
            refine ih _ acc hacc ?_ h' hh'
            refine ⟨?_, ?_, h3⟩
            · rw [countNonAdded_append]
              simp [oldMark, startsWithChar] at h1
              simp
              omega
            · rw [countNonRemoved_append]
              simp [newMark, startsWithChar] at h2
              simp
              omega
          · have hc1 : startsWithChar '+' (c :: t) = false := by
              simp [startsWithChar, hp]
            simp only [hc1, Bool.false_eq_true, if_false] at hh'
            by_cases hm : c = '-'
            · subst hm
              have hc2 : startsWithChar '-' ('-' :: t) = true := by simp [startsWithChar]
              simp only [hc2, if_true] at hh'
              refine ih _ acc hacc ?_ h' hh'
              refine ⟨?_, ?_, h3⟩
              · rw [countNonAdded_append]
                simp [oldMark, startsWithChar] at h1
                simp
                omega
              · rw [countNonRemoved_append]
                simp [newMark, startsWithChar] at h2
                simp
                omega
            · have hc2 : startsWithChar '-' (c :: t) = false := by
                simp [startsWithChar, hm]
              simp only [hc2, Bool.false_eq_true, if_false] at hh'
              by_cases hs : c = ' '
              · subst hs
                have hc3 : startsWithChar ' ' (' ' :: t) = true := by simp [startsWithChar]
                simp only [hc3, if_true] at hh'
                refine ih _ acc hacc ?_ h' hh'
                refine ⟨?_, ?_, h3⟩
                · rw [countNonAdded_append]
                  simp [oldMark, startsWithChar] at h1
                  simp
                  omega
                · rw [countNonRemoved_append]
                  simp [newMark, startsWithChar] at h2
                  simp
                  omega
              · have hc3 : startsWithChar ' ' (c :: t) = false := by
                  simp [startsWithChar, hs]
                simp only [hc3, Bool.false_eq_true, if_false] at hh'
                refine ih (some hopen) acc hacc ?_ h' hh'
                refine ⟨?_, ?_, h3⟩
                · simp [oldMark, startsWithChar, hm, hs] at h1
                  omega
                · simp [newMark, startsWithChar, hp, hs] at h2
                  omega

/-- Amended claim C6: `parseGitDiff` copies header counts verbatim and never
validates them against the hunk body (see the counterexample), so the count
invariant does not hold for every input; it holds for every count-consistent
diff text: whenever each header's declared counts equal the `-`/space and
`+`/space marker counts of the body section that follows it, every returned
hunk satisfies `countNonAdded = oldCount` and `countNonRemoved = newCount`. -/
theorem parseGitDiff_countsOk_of_consistent (input : JStr)
    (hcons : consistentLines (splitLines input) = true) :
    allCountsOk (parseGitDiff input) := by
  unfold parseGitDiff
  by_cases hinput : input = []
  · rw [if_pos hinput]
    intro h hh
    exact absurd hh (List.not_mem_nil h)
  · rw [if_neg hinput]
    intro h hh
    exact parseLinesDP_countsOk (splitLines input) none []
      (fun x hx => absurd hx (List.not_mem_nil x)) hcons h hh

/-- Witness for the amended C6 on the spec's own example diff. -/
theorem parseGitDiff_countsOk_of_consistent_witness :
    consistentLines (splitLines "@@ -1,2 +1,3 @@\n u\n-r\n+a\n+b".data) = true
    ∧ allCountsOk (parseGitDiff "@@ -1,2 +1,3 @@\n u\n-r\n+a\n+b".data) :=
  ⟨by decide,
    parseGitDiff_countsOk_of_consistent "@@ -1,2 +1,3 @@\n u\n-r\n+a\n+b".data (by decide)⟩
